import Mathlib

/-!
Verification of the cistern server core (`src/cistern/server.go`) of
tidb-binlog: the `DumpBinlog` range query, the namespace derivation in
`NewServer`, and the `Close` shutdown sequence, shallowly embedded over an
in-memory model of the ordered key-value store.
-/

namespace Cistern

/-- A byte string (Go `[]byte`); each element is intended to lie below 256. -/
abbrev Bytes := List Nat

/-- Strict lexicographic byte order, `a < b` in the sense of Go's
`bytes.Compare(a, b) < 0`; this is the key order of the BoltDB store. -/
def bytesLT : Bytes → Bytes → Bool
  | [], [] => false
  | [], _ :: _ => true
  | _ :: _, [] => false
  | a :: as, b :: bs => if a < b then true else if b < a then false else bytesLT as bs

/-- Byte order `a ≤ b`: `bytes.Compare(a, b) <= 0`. -/
def bytesLE (a b : Bytes) : Bool := !(bytesLT b a)

/-- The sign mask `0x8000000000000000` used by the TiDB codec to map a
signed int64 onto a comparable uint64. -/
def signMask : Nat := 2 ^ 63

/-- Big-endian base-256 digits of `n`, `w` digits wide, most significant
first (as produced by `binary.BigEndian.PutUint64` for `w = 8`). -/
def natToBE : Nat → Nat → Bytes
  | 0, _ => []
  | w + 1, n => n / 256 ^ w :: natToBE w (n % 256 ^ w)

/-- The number denoted by a big-endian base-256 digit list
(as read by `binary.BigEndian.Uint64`). -/
def natFromBE : Bytes → Nat
  | [] => 0
  | b :: r => b * 256 ^ r.length + natFromBE r

/-- Model of `codec.EncodeInt`: the memory-comparable encoding of an int64 `v`,
eight big-endian bytes of `uint64(v) XOR signMask`. -/
def encodeInt (v : Int) : Bytes :=
  natToBE 8 (((v + (signMask : Int)) % ((2 : Int) ^ 64)).toNat)

/-- The int64 denoted by the first eight bytes of a key; this is the value
`codec.DecodeInt` produces on a key of length at least 8. -/
def keyTS (k : Bytes) : Int :=
  (natFromBE (k.take 8) : Int) - (signMask : Int)

/-- Model of `codec.DecodeInt`: decode a memory-comparable int64 from the front of
`b`, returning the remaining bytes and the value, or an error when fewer
than eight bytes are available. -/
def decodeInt (b : Bytes) : Except String (Bytes × Int) :=
  if b.length < 8 then .error "insufficient bytes to decode value"
  else .ok (b.drop 8, keyTS b)

instance {e a : Type} [DecidableEq e] [DecidableEq a] : DecidableEq (Except e a) :=
  fun x y =>
    match x, y with
    | .ok u, .ok v =>
      if h : u = v then isTrue (by rw [h]) else isFalse (by simp [h])
    | .ok _, .error _ => isFalse (by simp)
    | .error _, .ok _ => isFalse (by simp)
    | .error u, .error v =>
      if h : u = v then isTrue (by rw [h]) else isFalse (by simp [h])

/-- An int64 value representable in Go's `int64`. -/
def int64Range (v : Int) : Prop := -((2 : Int) ^ 63) ≤ v ∧ v < (2 : Int) ^ 63

instance (v : Int) : Decidable (int64Range v) := by
  unfold int64Range
  infer_instance

theorem natToBE_length (w n : Nat) : (natToBE w n).length = w := by
  induction w generalizing n with
  | zero => rfl
  | succ w ih => simp [natToBE, ih]

theorem natFromBE_natToBE {w n : Nat} (h : n < 256 ^ w) :
    natFromBE (natToBE w n) = n := by
  induction w generalizing n with
  | zero =>
    simp [natToBE, natFromBE]
    omega
  | succ w ih =>
    have hmod : n % 256 ^ w < 256 ^ w := Nat.mod_lt _ (Nat.pos_pow_of_pos w (by norm_num))
    simp [natToBE, natFromBE, natToBE_length, ih hmod]
    rw [Nat.mul_comm]
    exact Nat.div_add_mod n (256 ^ w)

theorem natFromBE_lt {l : Bytes} (h : ∀ b ∈ l, b < 256) :
    natFromBE l < 256 ^ l.length := by
  induction l with
  | nil => simp [natFromBE]
  | cons b r ih =>
    have hb : b < 256 := h b (by simp)
    have hr : natFromBE r < 256 ^ r.length := ih fun x hx => h x (by simp [hx])
    simp only [natFromBE, List.length_cons]
    calc b * 256 ^ r.length + natFromBE r
        < b * 256 ^ r.length + 256 ^ r.length := by omega
      _ = (b + 1) * 256 ^ r.length := by ring
      _ ≤ 256 * 256 ^ r.length := Nat.mul_le_mul_right _ (by omega)
      _ = 256 ^ (r.length + 1) := by ring

theorem natToBE_natFromBE {l : Bytes} (h : ∀ b ∈ l, b < 256) :
    natToBE l.length (natFromBE l) = l := by
  induction l with
  | nil => rfl
  | cons b r ih =>
    have hB : 0 < 256 ^ r.length := Nat.pos_pow_of_pos _ (by norm_num)
    have hr : natFromBE r < 256 ^ r.length := natFromBE_lt fun x hx => h x (by simp [hx])
    have hdiv : (b * 256 ^ r.length + natFromBE r) / 256 ^ r.length = b := by
      rw [Nat.mul_comm b, Nat.mul_add_div hB, Nat.div_eq_of_lt hr]
      omega
    have hmod : (b * 256 ^ r.length + natFromBE r) % 256 ^ r.length = natFromBE r := by
      rw [Nat.mul_comm b, Nat.mul_add_mod, Nat.mod_eq_of_lt hr]
    simp only [natFromBE, List.length_cons, natToBE, hdiv, hmod,
      ih fun x hx => h x (by simp [hx])]

theorem natToBE_digits_lt {w n : Nat} (h : n < 256 ^ w) :
    ∀ b ∈ natToBE w n, b < 256 := by
  induction w generalizing n with
  | zero => simp [natToBE]
  | succ w ih =>
    intro b hb
    simp only [natToBE, List.mem_cons] at hb
    rcases hb with hb | hb
    · subst hb
      have : n / 256 ^ w < 256 := by
        apply Nat.div_lt_of_lt_mul
        calc n < 256 ^ (w + 1) := h
          _ = 256 ^ w * 256 := by ring
      exact this
    · exact ih (Nat.mod_lt _ (Nat.pos_pow_of_pos w (by norm_num))) b hb

theorem natToBE_lt {w a b : Nat} (hb : b < 256 ^ w) (hab : a < b) :
    bytesLT (natToBE w a) (natToBE w b) = true := by
  induction w generalizing a b with
  | zero => omega
  | succ w ih =>
    have hB : 0 < 256 ^ w := Nat.pos_pow_of_pos _ (by norm_num)
    have hqle : a / 256 ^ w ≤ b / 256 ^ w := Nat.div_le_div_right (Nat.le_of_lt hab)
    simp only [natToBE, bytesLT]
    rcases Nat.lt_or_ge (a / 256 ^ w) (b / 256 ^ w) with hq | hq
    · simp [hq]
    · have hqeq : a / 256 ^ w = b / 256 ^ w := Nat.le_antisymm hqle hq
      have hra : 256 ^ w * (a / 256 ^ w) + a % 256 ^ w = a := Nat.div_add_mod a _
      have hrb : 256 ^ w * (b / 256 ^ w) + b % 256 ^ w = b := Nat.div_add_mod b _
      have hrlt : a % 256 ^ w < b % 256 ^ w := by
        rw [← hra, ← hrb, hqeq] at hab
        omega
      have hbmod : b % 256 ^ w < 256 ^ w := Nat.mod_lt _ hB
      simp [hqeq, ih hbmod hrlt]

theorem encodeInt_toNat {v : Int} (h : int64Range v) :
    encodeInt v = natToBE 8 (v + (signMask : Int)).toNat := by
  rcases h with ⟨h1, h2⟩
  have hnn : (0 : Int) ≤ v + (signMask : Int) := by
    simp only [signMask] at *
    push_cast
    omega
  have hlt : v + (signMask : Int) < (2 : Int) ^ 64 := by
    simp only [signMask] at *
    push_cast
    omega
  simp only [encodeInt, Int.emod_eq_of_lt hnn hlt]

theorem encodeInt_lt {a b : Int} (ha : int64Range a) (hb : int64Range b)
    (hab : a < b) : bytesLT (encodeInt a) (encodeInt b) = true := by
  rw [encodeInt_toNat ha, encodeInt_toNat hb]
  have hbb : (b + (signMask : Int)).toNat < 256 ^ 8 := by
    rcases hb with ⟨h1, h2⟩
    simp only [signMask] at *
    omega
  have hord : (a + (signMask : Int)).toNat < (b + (signMask : Int)).toNat := by
    rcases ha with ⟨h1, h2⟩
    rcases hb with ⟨h3, h4⟩
    simp only [signMask] at *
    omega
  exact natToBE_lt hbb hord

theorem encodeInt_digits {v : Int} (b : Nat) (hb : b ∈ encodeInt v) : b < 256 := by
  have : ((v + (signMask : Int)) % ((2 : Int) ^ 64)).toNat < 256 ^ 8 := by
    have h2 : (0 : Int) < (2 : Int) ^ 64 := by norm_num
    have := Int.emod_lt_of_pos (v + (signMask : Int)) h2
    omega
  exact natToBE_digits_lt this b hb

theorem encodeInt_length (v : Int) : (encodeInt v).length = 8 := natToBE_length _ _

theorem keyTS_encodeInt {v : Int} (h : int64Range v) : keyTS (encodeInt v) = v := by
  rw [encodeInt_toNat h]
  have hlen : (natToBE 8 (v + (signMask : Int)).toNat).length = 8 := natToBE_length _ _
  have hbnd : (v + (signMask : Int)).toNat < 256 ^ 8 := by
    rcases h with ⟨h1, h2⟩
    simp only [signMask] at *
    omega
  have htake : (natToBE 8 (v + (signMask : Int)).toNat).take 8
      = natToBE 8 (v + (signMask : Int)).toNat := List.take_of_length_le (le_of_eq hlen)
  rw [keyTS, htake, natFromBE_natToBE hbnd]
  rcases h with ⟨h1, h2⟩
  simp only [signMask] at *
  omega

theorem decodeInt_of_length {k : Bytes} (h : 8 ≤ k.length) :
    decodeInt k = .ok (k.drop 8, keyTS k) := by
  simp [decodeInt, Nat.not_lt.mpr h]

theorem decodeInt_encodeInt {v : Int} (h : int64Range v) :
    decodeInt (encodeInt v) = .ok ([], v) := by
  have hlen : (encodeInt v).length = 8 := encodeInt_length v
  rw [decodeInt_of_length (le_of_eq hlen.symm), keyTS_encodeInt h,
    List.drop_of_length_le (le_of_eq hlen)]

/-- A valid stored key: exactly eight bytes, each below 256 (the shape of
every key the collector writes with `codec.EncodeInt`). -/
def validKey (k : Bytes) : Prop := k.length = 8 ∧ ∀ b ∈ k, b < 256

instance (k : Bytes) : Decidable (validKey k) := by
  unfold validKey
  infer_instance

theorem validKey_encode {k : Bytes} (h : validKey k) :
    encodeInt (keyTS k) = k ∧ int64Range (keyTS k) := by
  rcases h with ⟨hlen, hdig⟩
  have htake : k.take 8 = k := List.take_of_length_le (le_of_eq hlen)
  have hfrom : natFromBE k < 256 ^ 8 := by
    have := natFromBE_lt hdig
    rwa [hlen] at this
  have hrange : int64Range (keyTS k) := by
    constructor
    · simp only [keyTS, htake, signMask]
      have : (0 : Int) ≤ (natFromBE k : Int) := Int.natCast_nonneg _
      push_cast
      omega
    · simp only [keyTS, htake, signMask]
      have : (natFromBE k : Int) < ((256 : Int)) ^ 8 := by exact_mod_cast hfrom
      push_cast at this ⊢
      omega
  refine ⟨?_, hrange⟩
  have hnat : (keyTS k + (signMask : Int)).toNat = natFromBE k := by
    simp only [keyTS, htake, signMask]
    omega
  rw [encodeInt_toNat hrange, hnat, ← hlen, natToBE_natFromBE hdig]

theorem le_of_bytesLE_encode {a : Int} {k : Bytes} (ha : int64Range a)
    (hk : validKey k) (h : bytesLE (encodeInt a) k = true) : a ≤ keyTS k := by
  rcases validKey_encode hk with ⟨henc, hrange⟩
  by_contra hlt
  push_neg at hlt
  have := encodeInt_lt hrange ha hlt
  rw [henc] at this
  simp only [bytesLE, this] at h
  exact absurd h (by simp)

/-! ## The `DumpBinlog` range query (`src/cistern/server.go`, `DumpBinlog`) -/

/-- The request `binlog.DumpBinlogReq`: `BeginCommitTS` (exclusive lower
bound) and `Limit` (maximum number of entries). -/
structure DumpBinlogReq where
  beginCommitTS : Int
  limit : Int
deriving DecidableEq, Repr

/-- The response `binlog.DumpBinlogResp`, zero-initialized by
`ret := &binlog.DumpBinlogResp{}`: empty payload list, `EndCommitTS = 0`,
`Errmsg = ""`. -/
structure DumpBinlogResp where
  payloads : List Bytes
  endCommitTS : Int
  errmsg : String
deriving DecidableEq, Repr

/-- The mutable state of `DumpBinlog`'s scan callback: the response fields
built so far and the remaining `limit`. -/
structure DumpState where
  payloads : List Bytes
  endCommitTS : Int
  limit : Int
deriving DecidableEq, Repr

/-- One Store operation issued by the server, for tracking which effects a
handler performs on the store and window. -/
inductive StoreOp
  | loadLower
  | scanBinlog (startKey : Bytes)
  | put (ns key val : Bytes)
  | del (ns key : Bytes)
deriving DecidableEq, Repr

/-- Does the operation mutate the store or window? `Scan` and `LoadLower`
are pure reads. -/
def StoreOp.isMutation : StoreOp → Bool
  | .put _ _ _ => true
  | .del _ _ => true
  | _ => false

/-- The scan callback of `DumpBinlog`, folded over the visited
`(key, value)` pairs in store order. Mirrors the closure passed to
`s.boltdb.Scan`: stop when `limit <= 0`; decode the key's commitTS
(stop with the error on failure); skip the entry equal to `start`;
stop at the first commitTS `>= end`; decode the payload (stop with the
error on failure); append the payload, record `EndCommitTS`, decrement
`limit`. `decodePayload` is a parameter because its definition lives
outside this package's server file. -/
def scanLoop (start endTS : Int) (decodePayload : Bytes → Except String Bytes) :
    List (Bytes × Bytes) → DumpState → DumpState × Option String
  | [], st => (st, none)
  | (key, val) :: rest, st =>
    if st.limit ≤ 0 then (st, none)
    else
      match decodeInt key with
      | .error e => (st, some e)
      | .ok (_, cts) =>
        if cts = start then scanLoop start endTS decodePayload rest st
        else if endTS ≤ cts then (st, none)
        else
          match decodePayload val with
          | .error e => (st, some e)
          | .ok payload =>
            scanLoop start endTS decodePayload rest
              ⟨st.payloads ++ [payload], cts, st.limit - 1⟩

/-- The `(key, value)` pairs a `Scan` starting at `encodeInt start` visits:
those whose key is at or after the start key, in store order. -/
def scanVisited (store : List (Bytes × Bytes)) (start : Int) : List (Bytes × Bytes) :=
  store.filter fun kv => bytesLE (encodeInt start) kv.1

/-- Model of `Server.DumpBinlog` over an in-memory store: `store` is the binlog
namespace's `(key, value)` pairs in ascending key order, `windowLower` the
value `s.window.LoadLower()` returns at the start of the call. Returns the
response, the handler's error result, and the trace of store operations
performed. -/
def dumpBinlog (decodePayload : Bytes → Except String Bytes)
    (store : List (Bytes × Bytes)) (windowLower : Int) (req : DumpBinlogReq) :
    DumpBinlogResp × Option String × List StoreOp :=
  let start := req.beginCommitTS
  let startKey := encodeInt start
  let endTS := windowLower
  let r := scanLoop start endTS decodePayload (scanVisited store start)
    ⟨[], 0, req.limit⟩
  match r.2 with
  | none => (⟨r.1.payloads, r.1.endCommitTS, ""⟩, none,
      [.loadLower, .scanBinlog startKey])
  | some e => (⟨r.1.payloads, r.1.endCommitTS, e⟩, some e,
      [.loadLower, .scanBinlog startKey])

/-- Every key of the binlog namespace is a valid eight-byte encoded
commitTS — the shape the collector guarantees. -/
def WellFormedStore (store : List (Bytes × Bytes)) : Prop :=
  ∀ kv ∈ store, validKey kv.1

instance (store : List (Bytes × Bytes)) : Decidable (WellFormedStore store) := by
  unfold WellFormedStore
  infer_instance

/-- The store of the spec's boundary example: entries at commitTS 10..15,
each payload a single marker byte equal to its commitTS. -/
def exampleStore : List (Bytes × Bytes) :=
  [(encodeInt 10, [10]), (encodeInt 11, [11]), (encodeInt 12, [12]),
   (encodeInt 13, [13]), (encodeInt 14, [14]), (encodeInt 15, [15])]

theorem scanLoop_of_limit_nonpos {start endTS : Int}
    {decode : Bytes → Except String Bytes} {l : List (Bytes × Bytes)}
    {st : DumpState} (h : st.limit ≤ 0) :
    scanLoop start endTS decode l st = (st, none) := by
  cases l with
  | nil => rfl
  | cons kv rest =>
    obtain ⟨key, val⟩ := kv
    simp [scanLoop, h]

theorem scanLoop_limit_le {start endTS : Int}
    {decode : Bytes → Except String Bytes} (l : List (Bytes × Bytes))
    (st : DumpState) :
    (scanLoop start endTS decode l st).1.limit ≤ st.limit := by
  induction l generalizing st with
  | nil => simp [scanLoop]
  | cons kv rest ih =>
    obtain ⟨key, val⟩ := kv
    simp only [scanLoop]
    by_cases hl : st.limit ≤ 0
    · simp [hl]
    · simp only [if_neg hl]
      cases hdec : decodeInt key with
      | error e => simp
      | ok p =>
        obtain ⟨rem, cts⟩ := p
        simp only
        by_cases hstart : cts = start
        · simpa [hstart] using ih st
        · simp only [if_neg hstart]
          by_cases hend : endTS ≤ cts
          · simp [hend]
          · simp only [if_neg hend]
            cases hpay : decode val with
            | error e => simp
            | ok payload =>
              have := ih ⟨st.payloads ++ [payload], cts, st.limit - 1⟩
              simp only at this ⊢
              omega

theorem scanLoop_limit_nonneg {start endTS : Int}
    {decode : Bytes → Except String Bytes} (l : List (Bytes × Bytes))
    (st : DumpState) (h : 0 ≤ st.limit) :
    0 ≤ (scanLoop start endTS decode l st).1.limit := by
  induction l generalizing st with
  | nil => simpa [scanLoop] using h
  | cons kv rest ih =>
    obtain ⟨key, val⟩ := kv
    simp only [scanLoop]
    by_cases hl : st.limit ≤ 0
    · simpa [hl] using h
    · simp only [if_neg hl]
      cases hdec : decodeInt key with
      | error e => simpa using h
      | ok p =>
        obtain ⟨rem, cts⟩ := p
        simp only
        by_cases hstart : cts = start
        · simpa [hstart] using ih st h
        · simp only [if_neg hstart]
          by_cases hend : endTS ≤ cts
          · simpa [hend] using h
          · simp only [if_neg hend]
            cases hpay : decode val with
            | error e => simpa using h
            | ok payload =>
              exact ih ⟨st.payloads ++ [payload], cts, st.limit - 1⟩ (by simp; omega)

theorem scanLoop_limit_sum {start endTS : Int}
    {decode : Bytes → Except String Bytes} (l : List (Bytes × Bytes))
    (st : DumpState) :
    (scanLoop start endTS decode l st).1.limit
      + ((scanLoop start endTS decode l st).1.payloads.length : Int)
      = st.limit + (st.payloads.length : Int) := by
  induction l generalizing st with
  | nil => simp [scanLoop]
  | cons kv rest ih =>
    obtain ⟨key, val⟩ := kv
    simp only [scanLoop]
    by_cases hl : st.limit ≤ 0
    · simp [hl]
    · simp only [if_neg hl]
      cases hdec : decodeInt key with
      | error e => simp
      | ok p =>
        obtain ⟨rem, cts⟩ := p
        simp only
        by_cases hstart : cts = start
        · simpa [hstart] using ih st
        · simp only [if_neg hstart]
          by_cases hend : endTS ≤ cts
          · simp [hend]
          · simp only [if_neg hend]
            cases hpay : decode val with
            | error e => simp
            | ok payload =>
              have := ih ⟨st.payloads ++ [payload], cts, st.limit - 1⟩
              simp only [List.length_append, List.length_cons,
                List.length_nil] at this ⊢
              push_cast at this ⊢
              omega

theorem scanLoop_payloads_extend {start endTS : Int}
    {decode : Bytes → Except String Bytes} (l : List (Bytes × Bytes))
    (st : DumpState) :
    ∃ tail, (scanLoop start endTS decode l st).1.payloads = st.payloads ++ tail
      ∧ (tail = [] →
          (scanLoop start endTS decode l st).1.endCommitTS = st.endCommitTS) := by
  induction l generalizing st with
  | nil => exact ⟨[], by simp [scanLoop]⟩
  | cons kv rest ih =>
    obtain ⟨key, val⟩ := kv
    simp only [scanLoop]
    by_cases hl : st.limit ≤ 0
    · exact ⟨[], by simp [hl]⟩
    · simp only [if_neg hl]
      cases hdec : decodeInt key with
      | error e => exact ⟨[], by simp⟩
      | ok p =>
        obtain ⟨rem, cts⟩ := p
        simp only
        by_cases hstart : cts = start
        · simpa [hstart] using ih st
        · simp only [if_neg hstart]
          by_cases hend : endTS ≤ cts
          · exact ⟨[], by simp [hend]⟩
          · simp only [if_neg hend]
            cases hpay : decode val with
            | error e => exact ⟨[], by simp⟩
            | ok payload =>
              obtain ⟨tail, htail, _⟩ := ih ⟨st.payloads ++ [payload], cts, st.limit - 1⟩
              refine ⟨payload :: tail, ?_, ?_⟩
              · simp only at htail
                simp [htail]
              · intro h
                exact absurd h (by simp)

theorem scanLoop_mem_bounds {start endTS : Int}
    {decode : Bytes → Except String Bytes} (l : List (Bytes × Bytes))
    (st : DumpState) (hwf : ∀ kv ∈ l, validKey kv.1 ∧ start ≤ keyTS kv.1) :
    ∀ p ∈ (scanLoop start endTS decode l st).1.payloads,
      p ∈ st.payloads ∨ ∃ kv ∈ l, decode kv.2 = .ok p
        ∧ start < keyTS kv.1 ∧ keyTS kv.1 < endTS := by
  induction l generalizing st with
  | nil =>
    intro p hp
    exact Or.inl (by simpa [scanLoop] using hp)
  | cons kv rest ih =>
    obtain ⟨key, val⟩ := kv
    have hkey : validKey key := (hwf (key, val) (by simp)).1
    have hstartle : start ≤ keyTS key := (hwf (key, val) (by simp)).2
    have hdec : decodeInt key = .ok (key.drop 8, keyTS key) :=
      decodeInt_of_length (le_of_eq hkey.1.symm)
    have hrest : ∀ kv ∈ rest, validKey kv.1 ∧ start ≤ keyTS kv.1 :=
      fun kv hkv => hwf kv (by simp [hkv])
    intro p hp
    simp only [scanLoop] at hp
    by_cases hl : st.limit ≤ 0
    · exact Or.inl (by simpa [hl] using hp)
    · simp only [if_neg hl, hdec] at hp
      by_cases hstart : keyTS key = start
      · simp only [if_pos hstart] at hp
        rcases ih st hrest p hp with h | ⟨kv, hkv, hrest'⟩
        · exact Or.inl h
        · exact Or.inr ⟨kv, by simp [hkv], hrest'⟩
      · simp only [if_neg hstart] at hp
        by_cases hend : endTS ≤ keyTS key
        · exact Or.inl (by simpa [hend] using hp)
        · simp only [if_neg hend] at hp
          cases hpay : decode val with
          | error e => exact Or.inl (by simpa [hpay] using hp)
          | ok payload =>
            simp only [hpay] at hp
            rcases ih ⟨st.payloads ++ [payload], keyTS key, st.limit - 1⟩
                hrest p hp with h | ⟨kv, hkv, hrest'⟩
            · simp only [List.mem_append, List.mem_singleton] at h
              rcases h with h | h
              · exact Or.inl h
              · subst h
                refine Or.inr ⟨(key, val), by simp, by simpa using hpay, ?_, ?_⟩
                · show start < keyTS key
                  omega
                · show keyTS key < endTS
                  omega
            · exact Or.inr ⟨kv, by simp [hkv], hrest'⟩

theorem decodeInt_error_msg {k : Bytes} {e : String}
    (h : decodeInt k = .error e) : e = "insufficient bytes to decode value" := by
  by_cases hl : k.length < 8
  · simp only [decodeInt, if_pos hl, Except.error.injEq] at h
    exact h.symm
  · simp [decodeInt, if_neg hl] at h

theorem scanLoop_err_mem {start endTS : Int}
    {decode : Bytes → Except String Bytes} (l : List (Bytes × Bytes))
    (st : DumpState) (e : String)
    (h : (scanLoop start endTS decode l st).2 = some e) :
    ∃ kv ∈ l, decodeInt kv.1 = .error e ∨ decode kv.2 = .error e := by
  induction l generalizing st with
  | nil => simp [scanLoop] at h
  | cons kv rest ih =>
    obtain ⟨key, val⟩ := kv
    simp only [scanLoop] at h
    by_cases hl : st.limit ≤ 0
    · simp [hl] at h
    · simp only [if_neg hl] at h
      cases hdec : decodeInt key with
      | error e' =>
        simp only [hdec, Option.some.injEq] at h
        exact ⟨(key, val), by simp, Or.inl (by rw [hdec, h])⟩
      | ok p =>
        obtain ⟨rem, cts⟩ := p
        simp only [hdec] at h
        by_cases hstart : cts = start
        · simp only [if_pos hstart] at h
          obtain ⟨kv, hkv, hor⟩ := ih st h
          exact ⟨kv, by simp [hkv], hor⟩
        · simp only [if_neg hstart] at h
          by_cases hend : endTS ≤ cts
          · simp [hend] at h
          · simp only [if_neg hend] at h
            cases hpay : decode val with
            | error e' =>
              simp only [hpay, Option.some.injEq] at h
              exact ⟨(key, val), by simp, Or.inr (by rw [hpay, h])⟩
            | ok payload =>
              simp only [hpay] at h
              obtain ⟨kv, hkv, hor⟩ :=
                ih ⟨st.payloads ++ [payload], cts, st.limit - 1⟩ h
              exact ⟨kv, by simp [hkv], hor⟩

/-- An entry the scan callback passes over without stopping: its key
decodes, and it is either the skipped `start` entry or an entry below the
window bound whose payload decodes. -/
def Processable (start endTS : Int) (decode : Bytes → Except String Bytes)
    (kv : Bytes × Bytes) : Prop :=
  ∃ rem cts, decodeInt kv.1 = .ok (rem, cts) ∧
    (cts = start ∨ (cts ≠ start ∧ cts < endTS ∧ ∃ p, decode kv.2 = .ok p))

theorem scanLoop_append_processed {start endTS : Int}
    {decode : Bytes → Except String Bytes} (l1 : List (Bytes × Bytes))
    (st : DumpState)
    (hproc : ∀ kv ∈ l1, Processable start endTS decode kv)
    (hlim : 0 < (scanLoop start endTS decode l1 st).1.limit) :
    (scanLoop start endTS decode l1 st).2 = none ∧
    ∀ l2, scanLoop start endTS decode (l1 ++ l2) st
      = scanLoop start endTS decode l2 (scanLoop start endTS decode l1 st).1 := by
  induction l1 generalizing st with
  | nil => exact ⟨rfl, fun l2 => by simp [scanLoop]⟩
  | cons kv rest ih =>
    obtain ⟨key, val⟩ := kv
    have hl : ¬ st.limit ≤ 0 := by
      intro hle
      rw [scanLoop_of_limit_nonpos hle] at hlim
      exact absurd hlim (by simp; omega)
    obtain ⟨rem, cts, hdec, hcase⟩ := hproc (key, val) (by simp)
    have hrest : ∀ kv ∈ rest, Processable start endTS decode kv :=
      fun kv hkv => hproc kv (by simp [hkv])
    rcases hcase with hstart | ⟨hne, hend, p, hpay⟩
    · have hrw : scanLoop start endTS decode ((key, val) :: rest) st
          = scanLoop start endTS decode rest st := by
        simp [scanLoop, if_neg hl, hdec, hstart]
      rw [hrw] at hlim
      obtain ⟨h1, h2⟩ := ih st hrest hlim
      refine ⟨by rw [hrw]; exact h1, fun l2 => ?_⟩
      have : scanLoop start endTS decode (((key, val) :: rest) ++ l2) st
          = scanLoop start endTS decode (rest ++ l2) st := by
        simp [scanLoop, if_neg hl, hdec, hstart]
      rw [this, h2 l2, hrw]
    · have hnend : ¬ endTS ≤ cts := by omega
      have hrw : scanLoop start endTS decode ((key, val) :: rest) st
          = scanLoop start endTS decode rest
              ⟨st.payloads ++ [p], cts, st.limit - 1⟩ := by
        simp [scanLoop, if_neg hl, hdec, if_neg hne, if_neg hnend, hpay]
      rw [hrw] at hlim
      obtain ⟨h1, h2⟩ :=
        ih ⟨st.payloads ++ [p], cts, st.limit - 1⟩ hrest hlim
      refine ⟨by rw [hrw]; exact h1, fun l2 => ?_⟩
      have : scanLoop start endTS decode (((key, val) :: rest) ++ l2) st
          = scanLoop start endTS decode (rest ++ l2)
              ⟨st.payloads ++ [p], cts, st.limit - 1⟩ := by
        simp [scanLoop, if_neg hl, hdec, if_neg hne, if_neg hnend, hpay]
      rw [this, h2 l2, hrw]

theorem scanLoop_ordered {start endTS : Int}
    {decode : Bytes → Except String Bytes} (l : List (Bytes × Bytes))
    (st : DumpState) (hlen : ∀ kv ∈ l, 8 ≤ kv.1.length) :
    ∃ entries : List (Int × Bytes),
      (scanLoop start endTS decode l st).1.payloads
        = st.payloads ++ entries.map Prod.snd ∧
      List.Sublist (entries.map Prod.fst) (l.map fun kv => keyTS kv.1) ∧
      (∀ en ∈ entries, ∃ kv ∈ l, keyTS kv.1 = en.1 ∧ decode kv.2 = .ok en.2) ∧
      (scanLoop start endTS decode l st).1.endCommitTS
        = (entries.map Prod.fst).getLastD st.endCommitTS := by
  induction l generalizing st with
  | nil => exact ⟨[], by simp [scanLoop]⟩
  | cons kv rest ih =>
    obtain ⟨key, val⟩ := kv
    have hdec : decodeInt key = .ok (key.drop 8, keyTS key) :=
      decodeInt_of_length (hlen (key, val) (by simp))
    have hrest : ∀ kv ∈ rest, 8 ≤ kv.1.length :=
      fun kv hkv => hlen kv (by simp [hkv])
    simp only [scanLoop]
    by_cases hl : st.limit ≤ 0
    · exact ⟨[], by simp [hl]⟩
    · simp only [if_neg hl, hdec]
      by_cases hstart : keyTS key = start
      · simp only [if_pos hstart]
        obtain ⟨entries, h1, h2, h4, h3⟩ := ih st hrest
        refine ⟨entries, h1, h2.cons _, ?_, h3⟩
        intro en hen
        obtain ⟨kv, hkvmem, hkv⟩ := h4 en hen
        exact ⟨kv, List.mem_cons_of_mem _ hkvmem, hkv⟩
      · simp only [if_neg hstart]
        by_cases hend : endTS ≤ keyTS key
        · exact ⟨[], by simp [hend]⟩
        · simp only [if_neg hend]
          cases hpay : decode val with
          | error e => exact ⟨[], by simp⟩
          | ok payload =>
            obtain ⟨entries, h1, h2, h4, h3⟩ :=
              ih ⟨st.payloads ++ [payload], keyTS key, st.limit - 1⟩ hrest
            refine ⟨(keyTS key, payload) :: entries, ?_, ?_, ?_, ?_⟩
            · simp only at h1
              simp [h1]
            · simpa using h2.cons₂ (keyTS key)
            · intro en hen
              rcases List.mem_cons.mp hen with hen | hen
              · subst hen
                exact ⟨(key, val), List.mem_cons_self _ _, rfl, hpay⟩
              · obtain ⟨kv, hkvmem, hkv⟩ := h4 en hen
                exact ⟨kv, List.mem_cons_of_mem _ hkvmem, hkv⟩
            · simp only at h3
              rw [List.map_cons, List.getLastD_cons]
              exact h3

/-! ## Namespace derivation in `NewServer` -/

/-- The ASCII decimal digits of a cluster id, as printed by
`fmt.Sprintf("%d", cfg.ClusterID)`. -/
def decimalBytes (cid : Nat) : Bytes := (Nat.toDigits 10 cid).map Char.toNat

/-- Model of `WindowNamespace = []byte(fmt.Sprintf("meta_%d", cfg.ClusterID))`;
the byte literals spell `meta_`. -/
def windowNamespace (cid : Nat) : Bytes :=
  [109, 101, 116, 97, 95] ++ decimalBytes cid

/-- Model of `BinlogNamespace = []byte(fmt.Sprintf("binlog_%d", cfg.ClusterID))`;
the byte literals spell `binlog_`. -/
def binlogNamespace (cid : Nat) : Bytes :=
  [98, 105, 110, 108, 111, 103, 95] ++ decimalBytes cid

/-- Model of `SavePointNamespace = []byte(fmt.Sprintf("savepoint_%d", cfg.ClusterID))`;
the byte literals spell `savepoint_`. -/
def savePointNamespace (cid : Nat) : Bytes :=
  [115, 97, 118, 101, 112, 111, 105, 110, 116, 95] ++ decimalBytes cid

/-! ## The `Close` shutdown sequence -/

/-- Observable events around `Server.Close` and the background goroutines
registered on `s.wg`: each task's exit (its deferred `wg.Done`), and the
four sequential steps of `Close`: `gs.GracefulStop()` (stop accepting
requests), `cancel()` (raise the shared cancellation signal), `wg.Wait()`
(join), and `boltdb.Close()` (close the Store). -/
inductive CloseEvent
  | taskExit (i : Nat)
  | stopAccepting
  | cancelSignal
  | joinDone
  | storeClosed
deriving DecidableEq, Repr

/-- Position of the first occurrence of an event in a trace. -/
def evIdx (tr : List CloseEvent) (e : CloseEvent) : Nat := tr.indexOf e

/-- The traces an execution of `Server.Close` with `n` registered
background tasks can produce: the four steps of `Close` occur, in the
order its body executes them (`GracefulStop`, then `cancel`, then
`wg.Wait`, then `boltdb.Close`); every task exits; and, by the semantics
of `sync.WaitGroup` with `wg.Add(1)` before each `go` and a deferred
`wg.Done`, `wg.Wait` returns only after every task has exited. -/
def validCloseTrace (n : Nat) (tr : List CloseEvent) : Prop :=
  CloseEvent.stopAccepting ∈ tr ∧ CloseEvent.cancelSignal ∈ tr ∧
  CloseEvent.joinDone ∈ tr ∧ CloseEvent.storeClosed ∈ tr ∧
  (∀ i < n, CloseEvent.taskExit i ∈ tr) ∧
  evIdx tr .stopAccepting < evIdx tr .cancelSignal ∧
  evIdx tr .cancelSignal < evIdx tr .joinDone ∧
  evIdx tr .joinDone < evIdx tr .storeClosed ∧
  (∀ i < n, evIdx tr (.taskExit i) < evIdx tr .joinDone)

instance (n : Nat) (tr : List CloseEvent) : Decidable (validCloseTrace n tr) := by
  unfold validCloseTrace
  infer_instance

theorem dumpBinlog_eq (decode : Bytes → Except String Bytes)
    (store : List (Bytes × Bytes)) (windowLower : Int) (req : DumpBinlogReq) :
    dumpBinlog decode store windowLower req
      = (⟨(scanLoop req.beginCommitTS windowLower decode
            (scanVisited store req.beginCommitTS) ⟨[], 0, req.limit⟩).1.payloads,
          (scanLoop req.beginCommitTS windowLower decode
            (scanVisited store req.beginCommitTS) ⟨[], 0, req.limit⟩).1.endCommitTS,
          ((scanLoop req.beginCommitTS windowLower decode
            (scanVisited store req.beginCommitTS) ⟨[], 0, req.limit⟩).2).getD ""⟩,
         (scanLoop req.beginCommitTS windowLower decode
            (scanVisited store req.beginCommitTS) ⟨[], 0, req.limit⟩).2,
         [.loadLower, .scanBinlog (encodeInt req.beginCommitTS)]) := by
  unfold dumpBinlog
  cases h : (scanLoop req.beginCommitTS windowLower decode
      (scanVisited store req.beginCommitTS) ⟨[], 0, req.limit⟩).2 with
  | none => simp [h]
  | some e => simp [h]

/-- C3 (counterexample): with stored entries at commitTS 10..15,
`Window.lower = 13` and `beginCommitTS = 20` beyond all stored entries,
`DumpBinlog` returns no entry, yet the response's `endCommitTS` is the
zero value `0`, not the request's `beginCommitTS = 20`: the response is
zero-initialized and `EndCommitTS` is only ever assigned when an entry is
appended. -/
theorem dumpBinlog_endCommitTS_zero_cex :
    (dumpBinlog Except.ok exampleStore 13 ⟨20, 10⟩).1.payloads = []
    ∧ ¬ (dumpBinlog Except.ok exampleStore 13 ⟨20, 10⟩).1.endCommitTS = 20 := by
  decide

/-- C3 (amended): for every range-query request for which no entry is
returned, the `endCommitTS` field of `DumpBinlog`'s response equals `0`,
the zero-initialized value of the response — not the request's
`beginCommitTS`, which it equals only when `beginCommitTS = 0`. -/
theorem dumpBinlog_empty_endCommitTS (decode : Bytes → Except String Bytes)
    (store : List (Bytes × Bytes)) (windowLower : Int) (req : DumpBinlogReq)
    (h : (dumpBinlog decode store windowLower req).1.payloads = []) :
    (dumpBinlog decode store windowLower req).1.endCommitTS = 0 := by
  rw [dumpBinlog_eq] at h ⊢
  obtain ⟨tail, htail, hend⟩ := @scanLoop_payloads_extend req.beginCommitTS
    windowLower decode (scanVisited store req.beginCommitTS) ⟨[], 0, req.limit⟩
  simp only at h ⊢
  rw [htail] at h
  simp only [List.nil_append] at h
  exact hend h

/-- C3 (witness for the amended theorem): at `beginCommitTS = 20` over the
example store nothing is returned and `endCommitTS = 0`. -/
theorem dumpBinlog_empty_endCommitTS_witness :
    (dumpBinlog Except.ok exampleStore 13 ⟨20, 10⟩).1.endCommitTS = 0 :=
  dumpBinlog_empty_endCommitTS Except.ok exampleStore 13 ⟨20, 10⟩ (by decide)

/-- C4 (counterexample): with `limit = 0` the result is empty and
error-free, but the claim's "no scan of the entry namespace performed" is
false: `DumpBinlog` unconditionally issues `s.boltdb.Scan` on the binlog
namespace — the `limit <= 0` check only happens inside the scan callback —
so the operation trace contains the scan. -/
theorem dumpBinlog_limit_zero_cex :
    ¬ ((dumpBinlog Except.ok exampleStore 13 ⟨10, 0⟩).1.payloads = []
      ∧ (dumpBinlog Except.ok exampleStore 13 ⟨10, 0⟩).2.1 = none
      ∧ StoreOp.scanBinlog (encodeInt 10)
          ∉ (dumpBinlog Except.ok exampleStore 13 ⟨10, 0⟩).2.2) := by
  decide

/-- C4 (amended): for every range-query request with `limit <= 0`,
`DumpBinlog` returns an empty payload list (with `endCommitTS = 0`) and no
error, appending or decoding nothing; the `Scan` call on the entry
namespace is still issued, but its callback stops at the first visited
entry. -/
theorem dumpBinlog_limit_nonpos (decode : Bytes → Except String Bytes)
    (store : List (Bytes × Bytes)) (windowLower : Int) (req : DumpBinlogReq)
    (h : req.limit ≤ 0) :
    dumpBinlog decode store windowLower req
      = (⟨[], 0, ""⟩, none,
         [.loadLower, .scanBinlog (encodeInt req.beginCommitTS)]) := by
  rw [dumpBinlog_eq,
    @scanLoop_of_limit_nonpos req.beginCommitTS windowLower decode
      (scanVisited store req.beginCommitTS) ⟨[], 0, req.limit⟩ h]
  rfl

/-- C4 (witness for the amended theorem): `limit = 0` over the example
store yields the empty error-free response. -/
theorem dumpBinlog_limit_nonpos_witness :
    dumpBinlog Except.ok exampleStore 13 ⟨10, 0⟩
      = (⟨[], 0, ""⟩, none, [.loadLower, .scanBinlog (encodeInt 10)]) :=
  dumpBinlog_limit_nonpos Except.ok exampleStore 13 ⟨10, 0⟩ (by decide)

/-- C5: for every range-query request with `limit > 0`, `DumpBinlog`
returns at most `limit` payloads: the callback decrements the remaining
limit once per appended entry and refuses to continue once it reaches
zero, so the payload list's length never exceeds the requested limit. -/
theorem dumpBinlog_limit_bound (decode : Bytes → Except String Bytes)
    (store : List (Bytes × Bytes)) (windowLower : Int) (req : DumpBinlogReq)
    (h : 0 < req.limit) :
    ((dumpBinlog decode store windowLower req).1.payloads.length : Int)
      ≤ req.limit := by
  rw [dumpBinlog_eq]
  have hsum := @scanLoop_limit_sum req.beginCommitTS windowLower decode
    (scanVisited store req.beginCommitTS) ⟨[], 0, req.limit⟩
  have hnn := @scanLoop_limit_nonneg req.beginCommitTS windowLower decode
    (scanVisited store req.beginCommitTS) ⟨[], 0, req.limit⟩ (by simp; omega)
  simp only [List.length_nil] at hsum
  simp only
  omega

/-- C5 (witness): with `limit = 1` over the example store at most one
payload is returned. -/
theorem dumpBinlog_limit_bound_witness :
    ((dumpBinlog Except.ok exampleStore 13 ⟨10, 1⟩).1.payloads.length : Int)
      ≤ 1 :=
  dumpBinlog_limit_bound Except.ok exampleStore 13 ⟨10, 1⟩ (by decide)

/-- C9: `DumpBinlog` is read-only: for every request (and every store
content, window bound and payload decoder) its operation trace is exactly
one `LoadLower` read of the window followed by one `Scan` of the binlog
namespace starting at the encoded `beginCommitTS`, and no operation in the
trace mutates the store, the window, or any other server state. -/
theorem dumpBinlog_read_only (decode : Bytes → Except String Bytes)
    (store : List (Bytes × Bytes)) (windowLower : Int) (req : DumpBinlogReq) :
    (dumpBinlog decode store windowLower req).2.2
      = [.loadLower, .scanBinlog (encodeInt req.beginCommitTS)]
    ∧ ∀ op ∈ (dumpBinlog decode store windowLower req).2.2,
        op.isMutation = false := by
  rw [dumpBinlog_eq]
  refine ⟨rfl, ?_⟩
  intro op hop
  simp only [List.mem_cons, List.not_mem_nil, or_false] at hop
  rcases hop with h | h <;> subst h <;> rfl

/-- C9 (witness): the trace shape at a concrete request. -/
theorem dumpBinlog_read_only_witness :
    (dumpBinlog Except.ok exampleStore 13 ⟨10, 10⟩).2.2
      = [.loadLower, .scanBinlog (encodeInt 10)]
    ∧ ∀ op ∈ (dumpBinlog Except.ok exampleStore 13 ⟨10, 10⟩).2.2,
        op.isMutation = false :=
  dumpBinlog_read_only Except.ok exampleStore 13 ⟨10, 10⟩

/-- C1: every payload `DumpBinlog` returns comes from a stored entry whose
commitTS is strictly greater than the request's `beginCommitTS` (the entry
equal to `beginCommitTS` is skipped) and strictly less than the window
lower bound read at the start of the call; and on the spec's boundary
example — entries at commitTS 10..15, `Window.lower = 13`,
`beginCommitTS = 10`, `limit = 10` — the result is the payloads of the
entries at 11 and 12 with `endCommitTS = 12`. -/
theorem dumpBinlog_window_bounds :
    (∀ (decode : Bytes → Except String Bytes) (store : List (Bytes × Bytes))
        (windowLower : Int) (req : DumpBinlogReq),
      WellFormedStore store → int64Range req.beginCommitTS →
      ∀ p ∈ (dumpBinlog decode store windowLower req).1.payloads,
        ∃ kv ∈ store, decode kv.2 = .ok p
          ∧ req.beginCommitTS < keyTS kv.1 ∧ keyTS kv.1 < windowLower) ∧
    (dumpBinlog Except.ok exampleStore 13 ⟨10, 10⟩).1
      = ⟨[[11], [12]], 12, ""⟩ := by
  constructor
  · intro decode store windowLower req hwf hrange p hp
    rw [dumpBinlog_eq] at hp
    simp only at hp
    have hvis : ∀ kv ∈ scanVisited store req.beginCommitTS,
        validKey kv.1 ∧ req.beginCommitTS ≤ keyTS kv.1 := by
      intro kv hkv
      rw [scanVisited, List.mem_filter] at hkv
      have hv : validKey kv.1 := hwf kv hkv.1
      exact ⟨hv, le_of_bytesLE_encode hrange hv hkv.2⟩
    rcases scanLoop_mem_bounds (scanVisited store req.beginCommitTS)
        ⟨[], 0, req.limit⟩ hvis p hp with h | ⟨kv, hkv, hres⟩
    · simp at h
    · rw [scanVisited, List.mem_filter] at hkv
      exact ⟨kv, hkv.1, hres⟩
  · decide

/-- C1 (witness): instantiating the bound at the example store, the first
returned payload `[11]` comes from a stored entry strictly between
`beginCommitTS = 10` and the window lower bound 13. -/
theorem dumpBinlog_window_bounds_witness :
    ∃ kv ∈ exampleStore, (Except.ok kv.2 : Except String Bytes) = Except.ok [11]
      ∧ (10 : Int) < keyTS kv.1 ∧ keyTS kv.1 < 13 :=
  dumpBinlog_window_bounds.1 Except.ok exampleStore 13 ⟨10, 10⟩
    (by decide) (by decide) [11] (by decide)

/-- C6: assuming the scan visits the entry keys in strictly increasing
commitTS order (which holds by construction of the key encoding), the
payload list `DumpBinlog` returns is that of a list of entries with
strictly increasing commitTS, and the response's `endCommitTS` is the
commitTS of the last appended entry (`0`, its initial value, if none). -/
theorem dumpBinlog_ordered (decode : Bytes → Except String Bytes)
    (store : List (Bytes × Bytes)) (windowLower : Int) (req : DumpBinlogReq)
    (hlen : ∀ kv ∈ scanVisited store req.beginCommitTS, 8 ≤ kv.1.length)
    (hinc : ((scanVisited store req.beginCommitTS).map
        fun kv => keyTS kv.1).Pairwise (· < ·)) :
    ∃ entries : List (Int × Bytes),
      (dumpBinlog decode store windowLower req).1.payloads
        = entries.map Prod.snd
      ∧ List.Sublist (entries.map Prod.fst)
          ((scanVisited store req.beginCommitTS).map fun kv => keyTS kv.1)
      ∧ (∀ en ∈ entries, ∃ kv ∈ scanVisited store req.beginCommitTS,
          keyTS kv.1 = en.1 ∧ decode kv.2 = .ok en.2)
      ∧ (entries.map Prod.fst).Pairwise (· < ·)
      ∧ (dumpBinlog decode store windowLower req).1.endCommitTS
          = (entries.map Prod.fst).getLastD 0 := by
  rw [dumpBinlog_eq]
  obtain ⟨entries, h1, h2, h4, h3⟩ := @scanLoop_ordered req.beginCommitTS
    windowLower decode (scanVisited store req.beginCommitTS)
    ⟨[], 0, req.limit⟩ hlen
  refine ⟨entries, ?_, h2, h4, hinc.sublist h2, ?_⟩
  · simpa using h1
  · simpa using h3

/-- C6 (witness): over the example store the returned payloads are those
of an entry list whose commitTS sequence is drawn, in order, from the
visited keys, strictly increasing, with each entry backed by a visited
store pair, and `endCommitTS` is the last appended commitTS. -/
theorem dumpBinlog_ordered_witness :
    ∃ entries : List (Int × Bytes),
      (dumpBinlog Except.ok exampleStore 13 ⟨10, 10⟩).1.payloads
        = entries.map Prod.snd
      ∧ List.Sublist (entries.map Prod.fst)
          ((scanVisited exampleStore 10).map fun kv => keyTS kv.1)
      ∧ (∀ en ∈ entries, ∃ kv ∈ scanVisited exampleStore 10,
          keyTS kv.1 = en.1 ∧ (Except.ok kv.2 : Except String Bytes) = Except.ok en.2)
      ∧ (entries.map Prod.fst).Pairwise (· < ·)
      ∧ (dumpBinlog Except.ok exampleStore 13 ⟨10, 10⟩).1.endCommitTS
          = (entries.map Prod.fst).getLastD 0 :=
  dumpBinlog_ordered Except.ok exampleStore 13 ⟨10, 10⟩ (by decide) (by decide)

/-- C2: if payload decoding fails at some entry reached by the range-query
scan, the scan stops there — the entries after the failing key (`post`)
never influence the result — and the handler's response still carries the
payloads collected before the failing key together with the non-empty
error description, while the same error is also returned as the handler's
error result. -/
theorem dumpBinlog_decode_failure (decode : Bytes → Except String Bytes)
    (pre post : List (Bytes × Bytes)) (key val rem : Bytes)
    (windowLower cts : Int) (req : DumpBinlogReq) (e : String)
    (hall : ∀ kv ∈ pre ++ (key, val) :: post,
      bytesLE (encodeInt req.beginCommitTS) kv.1 = true)
    (hproc : ∀ kv ∈ pre, Processable req.beginCommitTS windowLower decode kv)
    (hlim : 0 < (scanLoop req.beginCommitTS windowLower decode pre
      ⟨[], 0, req.limit⟩).1.limit)
    (hkey : decodeInt key = .ok (rem, cts))
    (hne : cts ≠ req.beginCommitTS) (hlt : cts < windowLower)
    (hval : decode val = .error e) (hemsg : e ≠ "") :
    dumpBinlog decode (pre ++ (key, val) :: post) windowLower req
      = (⟨(scanLoop req.beginCommitTS windowLower decode pre
            ⟨[], 0, req.limit⟩).1.payloads,
          (scanLoop req.beginCommitTS windowLower decode pre
            ⟨[], 0, req.limit⟩).1.endCommitTS, e⟩,
         some e, [.loadLower, .scanBinlog (encodeInt req.beginCommitTS)])
      ∧ e ≠ "" := by
  have hfilter : scanVisited (pre ++ (key, val) :: post) req.beginCommitTS
      = pre ++ (key, val) :: post := List.filter_eq_self.mpr hall
  obtain ⟨-, happ⟩ := scanLoop_append_processed pre ⟨[], 0, req.limit⟩ hproc hlim
  have hl : ¬ (scanLoop req.beginCommitTS windowLower decode pre
      ⟨[], 0, req.limit⟩).1.limit ≤ 0 := by omega
  have hstep : scanLoop req.beginCommitTS windowLower decode ((key, val) :: post)
      (scanLoop req.beginCommitTS windowLower decode pre ⟨[], 0, req.limit⟩).1
      = ((scanLoop req.beginCommitTS windowLower decode pre
          ⟨[], 0, req.limit⟩).1, some e) := by
    simp [scanLoop, hl, hkey, hne, hval, not_le.mpr hlt]
  rw [dumpBinlog_eq, hfilter, happ ((key, val) :: post), hstep]
  exact ⟨rfl, hemsg⟩

/-- A payload decoder that fails exactly on the marker value `[1]`; used
to exercise the decode-failure path. -/
def badDecode : Bytes → Except String Bytes :=
  fun v => if v = [1] then .error "decode payload error" else .ok v

/-- C2 (witness): with a good entry at commitTS 11, a failing entry at 12
and a further entry at 14, the scan stops at 12: the response keeps the
payload of 11, `endCommitTS = 11`, and the non-empty error message. -/
theorem dumpBinlog_decode_failure_witness :
    dumpBinlog badDecode
        ([(encodeInt 11, [0])] ++ (encodeInt 12, [1]) :: [(encodeInt 14, [2])])
        13 ⟨10, 10⟩
      = (⟨(scanLoop 10 13 badDecode [(encodeInt 11, [0])]
            ⟨[], 0, 10⟩).1.payloads,
          (scanLoop 10 13 badDecode [(encodeInt 11, [0])]
            ⟨[], 0, 10⟩).1.endCommitTS, "decode payload error"⟩,
         some "decode payload error", [.loadLower, .scanBinlog (encodeInt 10)])
      ∧ "decode payload error" ≠ "" :=
  dumpBinlog_decode_failure badDecode [(encodeInt 11, [0])]
    [(encodeInt 14, [2])] (encodeInt 12) [1] [] 13 12 ⟨10, 10⟩
    "decode payload error"
    (by decide)
    (by
      intro kv hkv
      simp only [List.mem_singleton] at hkv
      subst hkv
      exact ⟨[], 11, by decide, Or.inr ⟨by decide, by decide, [0], by decide⟩⟩)
    (by decide) (by decide) (by decide) (by decide) (by decide) (by decide)

/-- C10: the response's `Errmsg` is non-empty exactly when the scan
returned an error, the handler's error result then carries the same
string, and any such error originates at a visited entry either from
decoding the commitTS out of the stored key or from decoding the payload
(assuming the payload decoder's error descriptions are non-empty; the key
decoder's only message is the non-empty `insufficient bytes` one). -/
theorem dumpBinlog_errmsg_iff (decode : Bytes → Except String Bytes)
    (store : List (Bytes × Bytes)) (windowLower : Int) (req : DumpBinlogReq)
    (hnonempty : ∀ v e, decode v = .error e → e ≠ "") :
    ((dumpBinlog decode store windowLower req).1.errmsg ≠ ""
      ↔ ¬ (dumpBinlog decode store windowLower req).2.1 = none)
    ∧ ∀ e, (dumpBinlog decode store windowLower req).2.1 = some e →
        (dumpBinlog decode store windowLower req).1.errmsg = e
        ∧ ∃ kv ∈ scanVisited store req.beginCommitTS,
            decodeInt kv.1 = .error e ∨ decode kv.2 = .error e := by
  rw [dumpBinlog_eq]
  cases herr : (scanLoop req.beginCommitTS windowLower decode
      (scanVisited store req.beginCommitTS) ⟨[], 0, req.limit⟩).2 with
  | none =>
    constructor
    · simp
    · intro e he
      simp at he
  | some e0 =>
    obtain ⟨kv, hkv, hor⟩ := scanLoop_err_mem _ _ e0 herr
    have he0 : e0 ≠ "" := by
      rcases hor with h | h
      · rw [decodeInt_error_msg h]
        decide
      · exact hnonempty _ _ h
    constructor
    · simp [he0]
    · intro e he
      have he2 : e0 = e := by simpa using he
      subst he2
      exact ⟨by simp, kv, hkv, hor⟩

/-- C10 (witness): over a store holding one malformed short key and one
entry whose payload fails to decode, the scan error surfaces both in
`Errmsg` and in the handler's error result. -/
theorem dumpBinlog_errmsg_iff_witness :
    ((dumpBinlog badDecode [(encodeInt 11, [1])] 13 ⟨10, 10⟩).1.errmsg ≠ ""
      ↔ ¬ (dumpBinlog badDecode [(encodeInt 11, [1])] 13 ⟨10, 10⟩).2.1 = none)
    ∧ ∀ e, (dumpBinlog badDecode [(encodeInt 11, [1])] 13 ⟨10, 10⟩).2.1 = some e →
        (dumpBinlog badDecode [(encodeInt 11, [1])] 13 ⟨10, 10⟩).1.errmsg = e
        ∧ ∃ kv ∈ scanVisited [(encodeInt 11, [1])] (10 : Int),
            decodeInt kv.1 = .error e ∨ badDecode kv.2 = .error e :=
  dumpBinlog_errmsg_iff badDecode [(encodeInt 11, [1])] 13 ⟨10, 10⟩
    (by
      intro v e h
      simp only [badDecode] at h
      by_cases hv : v = [1]
      · rw [if_pos hv] at h
        cases h
        decide
      · rw [if_neg hv] at h
        cases h)

/-- C7: in every trace `Server.Close` can produce — its four steps in the
order its body runs them, with `wg.Wait` returning only after every
registered background task has exited — the Store close comes strictly
after the stop-accepting step, the cancellation signal, the join, and
every task's exit; in particular the Store is never closed before the
join returns. -/
theorem close_order (n : Nat) (tr : List CloseEvent)
    (h : validCloseTrace n tr) :
    evIdx tr .stopAccepting < evIdx tr .cancelSignal
    ∧ evIdx tr .cancelSignal < evIdx tr .joinDone
    ∧ evIdx tr .joinDone < evIdx tr .storeClosed
    ∧ evIdx tr .cancelSignal < evIdx tr .storeClosed
    ∧ ∀ i < n, evIdx tr (.taskExit i) < evIdx tr .storeClosed := by
  obtain ⟨-, -, -, -, -, h6, h7, h8, h9⟩ := h
  refine ⟨h6, h7, h8, by omega, fun i hi => ?_⟩
  have := h9 i hi
  omega

/-- A concrete shutdown trace with two background tasks. -/
def closeTraceExample : List CloseEvent :=
  [.stopAccepting, .taskExit 0, .cancelSignal, .taskExit 1, .joinDone,
   .storeClosed]

/-- C7 (witness): the ordering facts at a concrete two-task trace. -/
theorem close_order_witness :
    evIdx closeTraceExample .stopAccepting < evIdx closeTraceExample .cancelSignal
    ∧ evIdx closeTraceExample .cancelSignal < evIdx closeTraceExample .joinDone
    ∧ evIdx closeTraceExample .joinDone < evIdx closeTraceExample .storeClosed
    ∧ evIdx closeTraceExample .cancelSignal < evIdx closeTraceExample .storeClosed
    ∧ ∀ i < 2, evIdx closeTraceExample (.taskExit i)
        < evIdx closeTraceExample .storeClosed :=
  close_order 2 closeTraceExample (by decide)

/-- C8: for every ClusterID the three namespaces `NewServer` derives
(`meta_<id>`, `binlog_<id>`, `savepoint_<id>`) are pairwise distinct byte
strings, and they are functions of the ClusterID alone: two servers
constructed with the same ClusterID derive identical namespaces. -/
theorem newServer_namespaces (cid cid2 : Nat) :
    windowNamespace cid ≠ binlogNamespace cid
    ∧ windowNamespace cid ≠ savePointNamespace cid
    ∧ binlogNamespace cid ≠ savePointNamespace cid
    ∧ (cid = cid2 →
        windowNamespace cid = windowNamespace cid2
        ∧ binlogNamespace cid = binlogNamespace cid2
        ∧ savePointNamespace cid = savePointNamespace cid2) := by
  refine ⟨?_, ?_, ?_, ?_⟩
  · intro h
    simp [windowNamespace, binlogNamespace] at h
  · intro h
    simp [windowNamespace, savePointNamespace] at h
  · intro h
    simp [binlogNamespace, savePointNamespace] at h
  · intro h
    subst h
    exact ⟨rfl, rfl, rfl⟩

/-- C8 (witness): at ClusterID 7 the namespaces are distinct and the
derivation is deterministic. -/
theorem newServer_namespaces_witness :
    windowNamespace 7 ≠ binlogNamespace 7
    ∧ windowNamespace 7 = windowNamespace 7 :=
  ⟨(newServer_namespaces 7 7).1, ((newServer_namespaces 7 7).2.2.2 rfl).1⟩

end Cistern
